import Mathlib

/-!
Shallow embedding of the stitching engine of `git-meta`
(`src/node/lib/util/stitch_util.js` and the tree merger in
`src/unnamed/part_003`, i.e. `tree_util.js`), together with proofs about the
behaviour its specification claims.

Modelling conventions:
* JavaScript strings are `String`; shas, ref names, urls and submodule paths
  are all plain strings, as in the source.
* A JS object used as a string-keyed dictionary is an association list
  `List (String × _)` in insertion order (`for (x in obj)` iterates insertion
  order for the string keys used here).
* Asynchronous git operations (`NodeGit` calls) are modelled by explicit
  state/oracle parameters; external modules of the repository that are not
  part of the sources (`GitUtil`, `SubmoduleUtil`, `SubmoduleConfigUtil`,
  `Commit`) are modelled from the spec where their behaviour matters and are
  marked as such.
* Loops that traverse a graph (and hence terminate only on acyclic inputs)
  take an explicit fuel argument.
-/

namespace GitMeta

/-- A git signature (`NodeGit.Signature`): name, email and timestamp.  The
timestamp is kept abstract as a string. -/
structure Signature where
  name : String
  email : String
  when : String
deriving DecidableEq, Repr

/-- The data of a commit object as used by `stitch_util.js`: tree, ordered
parent list, author, committer, message and message encoding. -/
structure CommitData where
  treeId : String
  parents : List String
  author : Signature
  committer : Signature
  message : String
  messageEncoding : String
deriving DecidableEq, Repr

/-- `NodeGit.TreeEntry.FILEMODE.TREE` (0o040000). -/
def FILEMODE_TREE : Nat := 16384

/-- `NodeGit.TreeEntry.FILEMODE.BLOB` (0o100644). -/
def FILEMODE_BLOB : Nat := 33188

/-- `NodeGit.TreeEntry.FILEMODE.COMMIT` (0o160000). -/
def FILEMODE_COMMIT : Nat := 57344

/-- `exports.splitSha` of `stitch_util.js`: insert a `/` between the second
and third characters of `sha`. -/
def splitSha (sha : String) : String :=
  let pre := sha.take 2
  let post := sha.drop 2
  pre ++ "/" ++ post

/-- `exports.convertedRefName`: name of the ref marking `sha` as converted. -/
def convertedRefName (sha : String) : String :=
  "refs/stitched/converted/" ++ splitSha sha

/-- `exports.fetchedSubRefName`: name of the ref marking that submodule commit
`subSha` has been fetched for meta-commit `metaSha`. -/
def fetchedSubRefName (metaSha subSha : String) : String :=
  "refs/stitched/fetched/" ++ splitSha metaSha ++ "/sub/" ++ splitSha subSha

/-- Modelled from the spec: `Commit.formatCommitTime` lives in the external
`Commit` module, which is not part of the sources; it renders a commit
timestamp.  Timestamps are already abstract strings here, so the rendering is
the identity. -/
def formatCommitTime (when : String) : String := when

/-- `exports.summarizeSubCommit`: the human-readable summary, appended in
detached mode, of submodule `name` sitting at commit `subSha` with data
`sub`. -/
def summarizeSubCommit (name subSha : String) (sub : CommitData) : String :=
  "Includes changes from submodule " ++ name ++ " on " ++ subSha ++ ".\n" ++
  "Author: " ++ sub.author.name ++ " <" ++ sub.author.email ++ ">\n" ++
  "Date:   " ++ formatCommitTime sub.author.when ++ "\n\n" ++
  sub.message ++ "\n"

/-!
## Commit orderer (`exports.listCommitsInOrder`)

The source computes, with an explicit work stack and memoisation, a *level*
for every sha reachable from `entry`: a sha not appearing as a key of
`parentMap` has no parents (`parentMap[next] || []`) and gets level `0`; a
key's level is the maximum over its listed parents of (parent level + 1),
with `0` for an empty parent list.  `levelOf` is that memoised recursion,
written with fuel (the stack loop of the source terminates exactly when the
parent relation is acyclic; `pm.length + 1` fuel suffices then, because the
recursion only descends through keys of the map).
-/

/-- The level function computed by the work-stack loop of
`listCommitsInOrder` (`stitch_util.js` lines 129–163). -/
def levelOf (pm : List (String × List String)) : Nat → String → Nat
  | 0, _ => 0
  | fuel + 1, x =>
    match pm.lookup x with
    | none => 0
    | some ps => ps.foldl (fun acc p => max acc (levelOf pm fuel p + 1)) 0

/-- The comparator `compareCommits` of `listCommitsInOrder`, as a boolean
"less or equal": first by level ascending, then by id ascending.  (The JS
comparator returns `aLevel - bLevel` for distinct levels and orders distinct
ids alphabetically; on the distinct keys being sorted it is a strict total
order, whose sort is characterised by this `le`.) -/
def commitLe (pm : List (String × List String)) (a b : String) : Bool :=
  let la := levelOf pm (pm.length + 1) a
  let lb := levelOf pm (pm.length + 1) b
  decide (la < lb) || (la == lb && decide (a ≤ b))

/-- `exports.listCommitsInOrder`: sort the keys of `parentMap` by
(level ascending, id ascending).  `entry` is the traversal entry point of the
source's level computation; under the documented precondition that every key
is reachable from `entry`, the worklist assigns every key the level
`levelOf`, so the result is the keys sorted by `commitLe` (ECMAScript
guarantees `Array.prototype.sort` with a consistent comparator returns the
list sorted by it; on the distinct keys `commitLe` is a total order, so that
list is realised by any correct sort).  Being a function of `entry` and `pm`
alone, the output is deterministic. -/
def listCommitsInOrder (entry : String) (pm : List (String × List String)) :
    List String :=
  let _ := entry
  (pm.map Prod.fst).insertionSort (fun a b => commitLe pm a b = true)

/-- Bounded reachability through the parent map: `reaches pm n x t` holds
when `t` can be reached from `x` in at most `n` parent-edge steps
(`parentMap[x] || []` supplies the edges, as in the source's traversal). -/
def reaches (pm : List (String × List String)) : Nat → String → String → Bool
  | 0, x, t => x == t
  | n + 1, x, t =>
    x == t || ((pm.lookup x).getD []).any (fun p => reaches pm n p t)

theorem levelOf_not_key {pm : List (String × List String)} {p : String}
    (h : pm.lookup p = none) : ∀ f, levelOf pm f p = 0
  | 0 => rfl
  | _ + 1 => by simp [levelOf, h]

theorem mem_of_lookup_eq_some {β : Type} {pm : List (String × β)} {k : String}
    {v : β} (h : pm.lookup k = some v) : (k, v) ∈ pm := by
  induction pm with
  | nil => simp [List.lookup] at h
  | cons hd tl ih =>
    obtain ⟨k', v'⟩ := hd
    rw [List.lookup] at h
    by_cases hk : k == k'
    · simp only [hk] at h
      cases h
      have hk2 : k = k' := eq_of_beq hk
      subst hk2
      exact List.mem_cons_self _ _
    · simp only [Bool.not_eq_true] at hk
      simp only [hk] at h
      exact List.mem_cons_of_mem _ (ih h)

theorem key_mem_of_lookup_isSome {β : Type} {pm : List (String × β)}
    {k : String} (h : (pm.lookup k).isSome) : k ∈ pm.map Prod.fst := by
  cases hv : pm.lookup k with
  | none => rw [hv] at h; cases h
  | some v => exact List.mem_map_of_mem _ (mem_of_lookup_eq_some hv)

theorem foldl_max_congr {α : Type} (f g : α → Nat) (l : List α) (acc : Nat)
    (h : ∀ p ∈ l, f p = g p) :
    l.foldl (fun a p => max a (f p)) acc =
      l.foldl (fun a p => max a (g p)) acc := by
  induction l generalizing acc with
  | nil => rfl
  | cons x xs ih =>
    simp only [List.foldl_cons]
    rw [h x (List.mem_cons_self x xs)]
    exact ih _ fun p hp => h p (List.mem_cons_of_mem x hp)

theorem le_foldl_max {α : Type} (f : α → Nat) (l : List α) (acc : Nat) :
    acc ≤ l.foldl (fun a p => max a (f p)) acc := by
  induction l generalizing acc with
  | nil => exact Nat.le_refl acc
  | cons x xs ih =>
    exact Nat.le_trans (Nat.le_max_left acc (f x)) (ih (max acc (f x)))

theorem foldl_max_of_mem {α : Type} (f : α → Nat) {l : List α} {p : α}
    (hp : p ∈ l) (acc : Nat) :
    f p ≤ l.foldl (fun a p => max a (f p)) acc := by
  induction l generalizing acc with
  | nil => cases hp
  | cons x xs ih =>
    simp only [List.foldl_cons]
    rcases List.mem_cons.mp hp with h | h
    · subst h
      exact Nat.le_trans (Nat.le_max_right acc (f p)) (le_foldl_max f xs _)
    · exact ih h _

/-- Once the fuel exceeds a rank witnessing acyclicity of the parent
relation, `levelOf` no longer depends on the fuel. -/
theorem levelOf_stab (pm : List (String × List String)) (rk : String → Nat)
    (hrank : ∀ cp ∈ pm, ∀ p ∈ cp.2, (pm.lookup p).isSome → rk p < rk cp.1) :
    ∀ n x f g, rk x = n → n < f → n < g →
      levelOf pm f x = levelOf pm g x := by
  intro n
  induction n using Nat.strong_induction_on with
  | _ n ih =>
    intro x f g hx hf hg
    match f, g with
    | f' + 1, g' + 1 =>
      cases hl : pm.lookup x with
      | none => rw [levelOf_not_key hl, levelOf_not_key hl]
      | some ps =>
        simp only [levelOf, hl]
        apply foldl_max_congr (fun p => levelOf pm f' p + 1)
          (fun p => levelOf pm g' p + 1)
        intro p hp
        cases hp' : pm.lookup p with
        | none => rw [levelOf_not_key hp', levelOf_not_key hp']
        | some _ =>
          have hmem : (x, ps) ∈ pm := mem_of_lookup_eq_some hl
          have hrk : rk p < rk x := hrank (x, ps) hmem p hp (by simp [hp'])
          rw [ih (rk p) (hx ▸ hrk) p f' g' rfl
            (Nat.lt_of_lt_of_le hrk (Nat.lt_succ_iff.mp (hx ▸ hf)))
            (Nat.lt_of_lt_of_le hrk (Nat.lt_succ_iff.mp (hx ▸ hg)))]

/-- Each listed parent contributes its level plus one to a key's level. -/
theorem levelOf_parent_succ_le {pm : List (String × List String)}
    {c p : String} {ps : List String} (hc : pm.lookup c = some ps)
    (hp : p ∈ ps) (f : Nat) :
    levelOf pm f p + 1 ≤ levelOf pm (f + 1) c := by
  simp only [levelOf, hc]
  exact foldl_max_of_mem (fun p => levelOf pm f p + 1) hp 0

theorem commitLe_iff (pm : List (String × List String)) (a b : String) :
    commitLe pm a b = true ↔
      (levelOf pm (pm.length + 1) a < levelOf pm (pm.length + 1) b ∨
        (levelOf pm (pm.length + 1) a = levelOf pm (pm.length + 1) b ∧
          a ≤ b)) := by
  simp [commitLe]

theorem commitLe_trans (pm : List (String × List String)) (a b c : String)
    (hab : commitLe pm a b = true) (hbc : commitLe pm b c = true) :
    commitLe pm a c = true := by
  rw [commitLe_iff] at hab hbc ⊢
  rcases hab with h1 | ⟨h1, h1'⟩ <;> rcases hbc with h2 | ⟨h2, h2'⟩
  · exact Or.inl (Nat.lt_trans h1 h2)
  · exact Or.inl (h2 ▸ h1)
  · exact Or.inl (h1 ▸ h2)
  · exact Or.inr ⟨h1.trans h2, le_trans h1' h2'⟩

theorem commitLe_total (pm : List (String × List String)) (a b : String) :
    commitLe pm a b = true ∨ commitLe pm b a = true := by
  rw [commitLe_iff, commitLe_iff]
  rcases Nat.lt_trichotomy (levelOf pm (pm.length + 1) a)
      (levelOf pm (pm.length + 1) b) with h | h | h
  · exact Or.inl (Or.inl h)
  · rcases le_total a b with h' | h'
    · exact Or.inl (Or.inr ⟨h, h'⟩)
    · exact Or.inr (Or.inr ⟨h.symm, h'⟩)
  · exact Or.inr (Or.inl h)

/-- In a list sorted (pairwise) by `r`, an element `a` not `r`-above `b`
appears strictly earlier than `b`. -/
theorem indexOf_lt_of_pairwise {r : String → String → Prop}
    {out : List String} (hp : out.Pairwise r) {a b : String} (ha : a ∈ out)
    (hb : b ∈ out) (hab : a ≠ b) (hnr : ¬r b a) :
    out.indexOf a < out.indexOf b := by
  have hia := List.indexOf_lt_length.mpr ha
  have hib := List.indexOf_lt_length.mpr hb
  rcases Nat.lt_trichotomy (out.indexOf a) (out.indexOf b) with h | h | h
  · exact h
  · exact absurd ((List.indexOf_inj ha hb).mp h) hab
  · exfalso
    apply hnr
    have := List.pairwise_iff_getElem.mp hp _ _ hib hia h
    rwa [List.getElem_indexOf hia, List.getElem_indexOf hib] at this

theorem foldl_max_one_from_one (l : List String) :
    l.foldl (fun a _ => max a 1) 1 = 1 := by
  induction l with
  | nil => rfl
  | cons x xs ih => simpa using ih

theorem foldl_max_one_nonempty {l : List String} (h : l ≠ []) :
    l.foldl (fun a _ => max a 1) 0 = 1 := by
  cases l with
  | nil => exact absurd rfl h
  | cons x xs => simpa using foldl_max_one_from_one xs

/-- C1: on a parent map with distinct keys, all reachable from `entry`, whose
parent relation is acyclic (witnessed by a rank function `rk`),
`listCommitsInOrder` returns the keys of the map in a list where (i) the
list is a permutation of the keys, (ii) every key occurs exactly once,
(iii) every listed parent that is itself a key appears strictly before its
child, and (iv) keys on the same level appear in ascending alphabetical
order.  Determinism is immediate: the embedding is a pure function of
`entry` and `pm`. -/
theorem listCommitsInOrder_correct (entry : String)
    (pm : List (String × List String)) (rk : String → Nat)
    (hnodup : (pm.map Prod.fst).Nodup)
    (_hreach : ∀ cp ∈ pm, reaches pm pm.length entry cp.1 = true)
    (hrank : ∀ cp ∈ pm, ∀ p ∈ cp.2, (pm.lookup p).isSome → rk p < rk cp.1)
    (hbound : ∀ cp ∈ pm, rk cp.1 < pm.length) :
    (listCommitsInOrder entry pm).Perm (pm.map Prod.fst) ∧
    (∀ k ∈ pm.map Prod.fst, (listCommitsInOrder entry pm).count k = 1) ∧
    (∀ c ps p, pm.lookup c = some ps → p ∈ ps → (pm.lookup p).isSome →
      (listCommitsInOrder entry pm).indexOf p <
        (listCommitsInOrder entry pm).indexOf c) ∧
    (∀ a b, a ∈ pm.map Prod.fst → b ∈ pm.map Prod.fst →
      levelOf pm (pm.length + 1) a = levelOf pm (pm.length + 1) b → a < b →
      (listCommitsInOrder entry pm).indexOf a <
        (listCommitsInOrder entry pm).indexOf b) := by
  have hout : listCommitsInOrder entry pm =
      (pm.map Prod.fst).insertionSort (fun a b => commitLe pm a b = true) :=
    rfl
  have hperm : (listCommitsInOrder entry pm).Perm (pm.map Prod.fst) := by
    rw [hout]
    exact List.perm_insertionSort _ _
  have hsorted : (listCommitsInOrder entry pm).Pairwise
      (fun a b => commitLe pm a b = true) := by
    haveI ht : IsTrans String (fun a b => commitLe pm a b = true) :=
      ⟨fun a b c => commitLe_trans pm a b c⟩
    haveI hto : IsTotal String (fun a b => commitLe pm a b = true) :=
      ⟨fun a b => commitLe_total pm a b⟩
    rw [hout]
    exact List.sorted_insertionSort _ _
  refine ⟨hperm, ?_, ?_, ?_⟩
  · intro k hk
    rw [hperm.count_eq k]
    exact List.count_eq_one_of_mem hnodup hk
  · intro c ps p hc hp hps
    have hcm : c ∈ pm.map Prod.fst :=
      List.mem_map_of_mem Prod.fst (mem_of_lookup_eq_some hc)
    have hpmem : p ∈ pm.map Prod.fst := key_mem_of_lookup_isSome hps
    obtain ⟨v, hv⟩ := Option.isSome_iff_exists.mp hps
    have hpk : (p, v) ∈ pm := mem_of_lookup_eq_some hv
    have hrkp : rk p < pm.length := hbound (p, v) hpk
    have hstab : levelOf pm pm.length p = levelOf pm (pm.length + 1) p :=
      levelOf_stab pm rk hrank (rk p) p _ _ rfl hrkp (Nat.lt_succ_of_lt hrkp)
    have hlt : levelOf pm (pm.length + 1) p < levelOf pm (pm.length + 1) c := by
      have h1 := levelOf_parent_succ_le hc hp pm.length
      omega
    refine indexOf_lt_of_pairwise hsorted (hperm.mem_iff.mpr hpmem)
      (hperm.mem_iff.mpr hcm) (fun he => absurd hlt (by rw [he]; exact lt_irrefl _)) ?_
    intro hr
    rcases (commitLe_iff pm c p).mp hr with h | ⟨h, _⟩
    · exact absurd (Nat.lt_trans h hlt) (lt_irrefl _)
    · exact absurd (h ▸ hlt) (lt_irrefl _)
  · intro a b ha hb hlev hab
    refine indexOf_lt_of_pairwise hsorted (hperm.mem_iff.mpr ha)
      (hperm.mem_iff.mpr hb) (ne_of_lt hab) ?_
    intro hr
    rcases (commitLe_iff pm b a).mp hr with h | ⟨_, h⟩
    · exact absurd (hlev ▸ h) (lt_irrefl _)
    · exact absurd hab (not_lt.mpr h)

/-- Witness for `listCommitsInOrder_correct` on the concrete map
`a → {b, c}`, `b → {}`, `c → {b}` with entry `a`. -/
theorem listCommitsInOrder_correct_witness :
    (([("a", ["b", "c"]), ("b", ([] : List String)), ("c", ["b"])].map
        Prod.fst).Nodup ∧
      (∀ cp ∈ [("a", ["b", "c"]), ("b", ([] : List String)), ("c", ["b"])],
        reaches [("a", ["b", "c"]), ("b", []), ("c", ["b"])] 3 "a" cp.1 =
          true)) ∧
    (listCommitsInOrder "a"
        [("a", ["b", "c"]), ("b", []), ("c", ["b"])]).Perm
      ["a", "b", "c"] := by
  refine ⟨⟨by decide, by decide⟩, ?_⟩
  exact (listCommitsInOrder_correct "a"
    [("a", ["b", "c"]), ("b", []), ("c", ["b"])]
    (fun s => if s = "a" then 2 else if s = "c" then 1 else 0)
    (by decide) (by decide) (by decide) (by decide)).1

/-- C9, counterexample: in the map `a → {b, c}`, `b → {z}`, `c → {}` (with
`z` absent from the map), the claim assigns `b` level `0` (its only listed
parent is absent), and hence predicts the output order `[b, c, a]`; the code
assigns the absent `z` level `0` and the edge contributes `0 + 1`, so `b`
gets level `1` and the output is `[c, b, a]`. -/
theorem levelOf_absent_parent_counterexample :
    levelOf [("a", ["b", "c"]), ("b", ["z"]), ("c", [])] 4 "b" ≠ 0 ∧
    levelOf [("a", ["b", "c"]), ("b", ["z"]), ("c", [])] 4 "b" = 1 ∧
    listCommitsInOrder "a" [("a", ["b", "c"]), ("b", ["z"]), ("c", [])] =
      ["c", "b", "a"] := by
  refine ⟨by decide, by decide, by decide⟩

/-- C9, amended: in `listCommitsInOrder`'s level assignment a parent id
absent from the map is itself assigned level `0`, and an edge to it
contributes `0 + 1 = 1`; consequently a commit with a non-empty parent list
all of whose parents are absent from the map is assigned level `1` (not
`0`). -/
theorem levelOf_all_parents_absent (pm : List (String × List String))
    (x : String) (ps : List String) (f : Nat) (hx : pm.lookup x = some ps)
    (hne : ps ≠ []) (habs : ∀ p ∈ ps, pm.lookup p = none) :
    levelOf pm (f + 1) x = 1 ∧ ∀ p ∈ ps, levelOf pm (f + 1) p = 0 := by
  constructor
  · simp only [levelOf, hx]
    rw [foldl_max_congr (fun p => levelOf pm f p + 1) (fun _ => 1) ps 0
      (fun p hp => by
        show levelOf pm f p + 1 = 1
        rw [levelOf_not_key (habs p hp)])]
    exact foldl_max_one_nonempty hne
  · exact fun p hp => levelOf_not_key (habs p hp) _

/-- Witness for `levelOf_all_parents_absent` at `pm = [b → {z}]`. -/
theorem levelOf_all_parents_absent_witness :
    (([("b", ["z"])] : List (String × List String)).lookup "b" =
        some ["z"] ∧ (["z"] : List String) ≠ [] ∧
      (∀ p ∈ (["z"] : List String),
        ([("b", ["z"])] : List (String × List String)).lookup p = none)) ∧
    levelOf [("b", ["z"])] 2 "b" = 1 := by
  refine ⟨⟨by decide, by decide, by decide⟩, ?_⟩
  exact (levelOf_all_parents_absent [("b", ["z"])] "b" ["z"] 1 (by decide)
    (by decide) (by decide)).1

/-!
## Conversion ledger and ancestor-pruned traversal
(`exports.getConvertedSha`, `exports.listCommitsToStitch`)
-/

/-- The slice of a git repository `stitch_util.js` reads: commit objects by
sha and refs by name (the object store and ref namespace of the spec's §6
interface). -/
structure Repo where
  commits : List (String × CommitData)
  refs : List (String × String)
deriving DecidableEq, Repr

/-- `repo.getCommit(sha)`: `none` models the call throwing. -/
def getCommit (repo : Repo) (sha : String) : Option CommitData :=
  repo.commits.lookup sha

/-- `exports.getConvertedSha`: the target of the converted-marker ref of
`sha`, or `none` when the ref lookup throws. -/
def getConvertedSha (repo : Repo) (sha : String) : Option String :=
  repo.refs.lookup (convertedRefName sha)

/-- The `while` loop of `exports.listCommitsToStitch` (lines 197–224):
depth-first traversal over parents with an explicit stack, accumulating
`allParents` (sha → parent shas, in insertion order), skipping shas already
seen and stopping at any sha that has a converted marker.  The source's
stack holds commit objects; here it holds their shas and parent lists are
read back from the repo (a commit reachable from a stored commit is assumed
stored; `getD []` covers the corrupt-store case in which `getParents` would
throw).  Fuel bounds the traversal, which terminates on the acyclic commit
graphs git can store. -/
def listCommitsToStitchLoop (repo : Repo) :
    Nat → List String → List (String × List String) →
      List (String × List String)
  | 0, _, allParents => allParents
  | _ + 1, [], allParents => allParents
  | fuel + 1, nextSha :: rest, allParents =>
    if (allParents.lookup nextSha).isSome then
      listCommitsToStitchLoop repo fuel rest allParents
    else if (getConvertedSha repo nextSha).isSome then
      listCommitsToStitchLoop repo fuel rest allParents
    else
      let parentShas := ((getCommit repo nextSha).map CommitData.parents).getD []
      listCommitsToStitchLoop repo fuel (parentShas.reverse ++ rest)
        (allParents ++ [(nextSha, parentShas)])

/-- `exports.listCommitsToStitch`: traverse unconverted ancestors of
`commitSha`, then order them with `listCommitsInOrder` (the source finally
maps shas back to commit objects; the sha list is returned here). -/
def listCommitsToStitch (repo : Repo) (fuel : Nat) (commitSha : String) :
    List String :=
  let allParents := listCommitsToStitchLoop repo fuel [commitSha] []
  listCommitsInOrder commitSha allParents

theorem listCommitsToStitchLoop_nil (repo : Repo)
    (acc : List (String × List String)) :
    ∀ f, listCommitsToStitchLoop repo f [] acc = acc
  | 0 => rfl
  | _ + 1 => rfl

/-- C4: when the entry commit already carries a converted-marker ref, the
traversal of `listCommitsToStitch` stops at the entry immediately and the
returned list is empty — so a second stitching run over the same entry has
nothing to write (the orchestrator writes commits, trees, blobs and markers
only per listed commit). -/
theorem listCommitsToStitch_of_converted (repo : Repo) (fuel : Nat)
    (sha : String)
    (h : (repo.refs.lookup (convertedRefName sha)).isSome = true) :
    listCommitsToStitch repo fuel sha = [] := by
  unfold listCommitsToStitch
  cases fuel with
  | zero => rfl
  | succ f =>
    simp only [listCommitsToStitchLoop, List.lookup_nil, Option.isSome_none,
      Bool.false_eq_true, if_false, getConvertedSha, h, if_true,
      listCommitsToStitchLoop_nil]
    rfl

/-- Witness for `listCommitsToStitch_of_converted`: a store already holding
the converted marker for commit `abcd`. -/
theorem listCommitsToStitch_of_converted_witness :
    ((Repo.mk [] [(convertedRefName "abcd", "ef01")]).refs.lookup
        (convertedRefName "abcd")).isSome = true ∧
    listCommitsToStitch (Repo.mk [] [(convertedRefName "abcd", "ef01")]) 5
      "abcd" = [] :=
  ⟨by decide,
    listCommitsToStitch_of_converted
      (Repo.mk [] [(convertedRefName "abcd", "ef01")]) 5 "abcd" (by decide)⟩

/-!
## The stitched-commit writer (`exports.writeStitchedCommit`)

External collaborators (`SubmoduleUtil.getSubmoduleChanges`,
`SubmoduleConfigUtil`, `TreeUtil.writeTree`, `NodeGit.Commit.create`) are
supplied as inputs/oracles; every git side effect the function performs is
recorded in the returned structure.
-/

/-- One entry of the `changed` table of a submodule change set: old and new
submodule shas (the source reads `changed[name]["new"]`). -/
structure ChangedEntry where
  oldSha : String
  newSha : String
deriving DecidableEq, Repr

/-- The result of the external `SubmoduleUtil.getSubmoduleChanges` (spec
§4.3): paths added (→ new sha), changed (→ old/new shas) and removed. -/
structure SubChanges where
  added : List (String × String)
  changed : List (String × ChangedEntry)
  removed : List String
deriving DecidableEq, Repr

/-- `TreeUtil.Change` (`part_003` lines 102–129): an object id and a file
mode. -/
structure Change where
  id : String
  mode : Nat
deriving DecidableEq, Repr

/-- JS dictionary assignment `m[k] = v` on an association list: overwrite in
place, or append when the key is new. -/
def setKey {β : Type} (m : List (String × β)) (k : String) (v : β) :
    List (String × β) :=
  match m with
  | [] => [(k, v)]
  | (k', v') :: rest =>
    if k' = k then (k, v) :: rest else (k', v') :: setKey rest k v

/-- Modelled from the spec: `SubmoduleConfigUtil.modulesFileName` (external
module) — the fixed path of the configuration blob, git's `.gitmodules`. -/
def modulesFileName : String := ".gitmodules"

/-- Modelled from the spec: `SubmoduleConfigUtil.writeConfigText` (external
module) — the textual configuration blob, one stanza per submodule stating
its path and url (spec §6). -/
def writeConfigText (urls : List (String × String)) : String :=
  String.join (urls.map fun nu =>
    "[submodule \x22" ++ nu.1 ++ "\x22]\n\tpath = " ++ nu.1 ++
      "\n\turl = " ++ nu.2 ++ "\n")

/-- The object database's blob write (`db.write(text, len, BLOB)`),
content-addressed: the id returned is a function of the content. -/
def odbWriteBlob (text : String) : String := "blob:" ++ text

/-- `exports.computeModulesFile`: keep only urls of excluded submodules,
write the config text as a blob, return it as a BLOB-mode change. -/
def computeModulesFile (urls : List (String × String))
    (exclude : String → Bool) : Change :=
  let excludedUrls := urls.filter fun nu => exclude nu.1
  Change.mk (odbWriteBlob (writeConfigText excludedUrls)) FILEMODE_BLOB

/-- The mutable locals of `writeStitchedCommit` during its scan of the
submodule changes.  `logs` records each `console.error` diagnostic as the
triple (meta-commit sha, submodule path, missing sha). -/
structure StitchState where
  updateModules : Bool
  changes : List (String × Option Change)
  commitMessage : String
  parentsToWrite : List String
  synthetics : List String
  logs : List (String × String × String)
deriving DecidableEq, Repr

/-- `stitchSub` (lines 431–451): look up the submodule commit; if that
throws, log the diagnostic and record nothing (the `// RETURN` branch);
otherwise record a TREE-mode change to the submodule commit's tree and, in
detached mode, append the summary to the message, else add the submodule
commit as a parent to write. -/
def stitchSub (repo : Repo) (metaSha : String) (detach : Bool)
    (name sha : String) (st : StitchState) : StitchState :=
  match getCommit repo sha with
  | none => { st with logs := st.logs ++ [(metaSha, name, sha)] }
  | some subCommit =>
    let c := some (Change.mk subCommit.treeId FILEMODE_TREE)
    let st' := { st with changes := setKey st.changes name c }
    if detach then
      { st' with commitMessage :=
        st'.commitMessage ++ "\n" ++ summarizeSubCommit name sha subCommit }
    else
      { st' with parentsToWrite := st'.parentsToWrite ++ [sha] }

/-- `changeExcluded` (lines 453–456): keep the entry as a COMMIT-mode
pointer at the new sha. -/
def changeExcluded (name newSha : String) (st : StitchState) : StitchState :=
  let c := some (Change.mk newSha FILEMODE_COMMIT)
  { st with changes := setKey st.changes name c }

/-- The `added` loop (lines 462–473): an excluded added path marks the
modules file for regeneration and keeps pointer semantics; a non-excluded
one is pushed on `synthetics` and stitched. -/
def processAdded (repo : Repo) (metaSha : String) (exclude : String → Bool)
    (detach : Bool) : List (String × String) → StitchState → StitchState
  | [], st => st
  | (name, newSha) :: rest, st =>
    let st' :=
      if exclude name then
        changeExcluded name newSha { st with updateModules := true }
      else
        stitchSub repo metaSha detach name newSha
          { st with synthetics := st.synthetics ++ [name] }
    processAdded repo metaSha exclude detach rest st'

/-- The `changed` loop (lines 477–487): identical to the `added` loop
except that an excluded changed path does *not* set `updateModules`. -/
def processChanged (repo : Repo) (metaSha : String) (exclude : String → Bool)
    (detach : Bool) : List (String × ChangedEntry) → StitchState → StitchState
  | [], st => st
  | (name, ch) :: rest, st =>
    let st' :=
      if exclude name then
        changeExcluded name ch.newSha st
      else
        stitchSub repo metaSha detach name ch.newSha
          { st with synthetics := st.synthetics ++ [name] }
    processChanged repo metaSha exclude detach rest st'

/-- The `removed` loop (lines 491–497): record a deletion at every removed
path; an excluded removed path marks the modules file for regeneration. -/
def processRemoved (exclude : String → Bool) :
    List String → StitchState → StitchState
  | [], st => st
  | name :: rest, st =>
    processRemoved exclude rest
      { st with changes := setKey st.changes name none,
                updateModules := st.updateModules || exclude name }

/-- Everything `writeStitchedCommit` produces and every git side effect it
performs: the new commit (with its content-addressed sha), the change map
handed to `TreeUtil.writeTree`, the `synthetics` list, the logged
diagnostics, and the refs created and deleted. -/
structure WriteResult where
  newSha : String
  newCommit : CommitData
  changes : List (String × Option Change)
  synthetics : List String
  logs : List (String × String × String)
  refsCreated : List (String × String)
  refsDeleted : List String
  updateModules : Bool
deriving DecidableEq, Repr

/-- `exports.writeStitchedCommit` (lines 400–526).  `subChanges` is the
result of the external `SubmoduleUtil.getSubmoduleChanges(repo, commit)`;
`newUrls` that of `SubmoduleConfigUtil.getSubmodulesFromCommit(repo,
commit)`, read when the modules file is regenerated; `writeTreeF` is
`TreeUtil.writeTree(repo, parentTree, changes)` (embedded separately as
`writeTree`), mapping the first parent's tree and the change map to the new
tree id; `hashCommit` is the content-addressed `NodeGit.Commit.create`.
`refsDeleted` lists every ref deletion performed: there is none — the
`synthetics` list is collected but never consumed and the function contains
no ref removal, although its documentation promises to clean the
`refs/stitched/fetched` refs of this commit. -/
def writeStitchedCommit (repo : Repo) (commitSha : String)
    (commit : CommitData) (parents : List (String × CommitData))
    (exclude : String → Bool) (detach : Bool) (subChanges : SubChanges)
    (newUrls : List (String × String))
    (writeTreeF : Option String → List (String × Option Change) → String)
    (hashCommit : CommitData → String) : WriteResult :=
  let parentTree : Option String := parents.head?.map fun p => p.2.treeId
  let st0 : StitchState :=
    { updateModules := false, changes := [],
      commitMessage := commit.message,
      parentsToWrite := parents.map Prod.fst, synthetics := [], logs := [] }
  let st1 := processAdded repo commitSha exclude detach subChanges.added st0
  let st2 := processChanged repo commitSha exclude detach subChanges.changed st1
  let st3 := processRemoved exclude subChanges.removed st2
  let modChange := some (computeModulesFile newUrls exclude)
  let st4 :=
    if st3.updateModules then
      { st3 with changes := setKey st3.changes modulesFileName modChange }
    else st3
  let newTree := writeTreeF parentTree st4.changes
  let newCommit : CommitData :=
    { treeId := newTree, parents := st4.parentsToWrite,
      author := commit.author, committer := commit.committer,
      message := st4.commitMessage,
      messageEncoding := commit.messageEncoding }
  let newSha := hashCommit newCommit
  { newSha := newSha, newCommit := newCommit, changes := st4.changes,
    synthetics := st4.synthetics, logs := st4.logs,
    refsCreated := [(convertedRefName commitSha, newSha)],
    refsDeleted := [], updateModules := st3.updateModules }

theorem lookup_setKey_self {β : Type} (m : List (String × β)) (k : String)
    (v : β) : (setKey m k v).lookup k = some v := by
  induction m with
  | nil => simp [setKey, List.lookup]
  | cons hd tl ih =>
    obtain ⟨k', v'⟩ := hd
    by_cases h : k' = k
    · simp [setKey, h, List.lookup]
    · simp only [setKey, h, if_false]
      rw [List.lookup]
      have : (k == k') = false := by
        simp [BEq.beq]
        exact fun he => h he.symm
      simp [this, ih]

theorem lookup_setKey_ne {β : Type} {m : List (String × β)} {k k' : String}
    {v : β} (h : k ≠ k') : (setKey m k' v).lookup k = m.lookup k := by
  induction m with
  | nil =>
    simp only [setKey, List.lookup, List.lookup_nil]
    simp [beq_eq_false_iff_ne.mpr h]
  | cons hd tl ih =>
    obtain ⟨k0, v0⟩ := hd
    by_cases h0 : k0 = k'
    · subst h0
      simp only [setKey, if_true]
      rw [List.lookup, List.lookup]
      simp [show (k == k0) = false from by simp [h], ih]
    · simp only [setKey, h0, if_false]
      rw [List.lookup, List.lookup]
      cases hbeq : k == k0
      · simp [ih]
      · simp

/-- The detached-mode message contribution of submodule `name` at `sha`:
empty when the submodule commit is missing from the store. -/
def summaryIfPresent (repo : Repo) (name sha : String) : String :=
  match getCommit repo sha with
  | none => ""
  | some sub => "\n" ++ summarizeSubCommit name sha sub

theorem stitchSub_updateModules (repo : Repo) (m : String) (d : Bool)
    (n s : String) (st : StitchState) :
    (stitchSub repo m d n s st).updateModules = st.updateModules := by
  unfold stitchSub
  cases getCommit repo s <;> [rfl; (cases d <;> simp)]

theorem stitchSub_synthetics (repo : Repo) (m : String) (d : Bool)
    (n s : String) (st : StitchState) :
    (stitchSub repo m d n s st).synthetics = st.synthetics := by
  unfold stitchSub
  cases getCommit repo s <;> [rfl; (cases d <;> simp)]

theorem stitchSub_parents (repo : Repo) (m : String) (d : Bool)
    (n s : String) (st : StitchState) :
    (stitchSub repo m d n s st).parentsToWrite =
      st.parentsToWrite ++
        (if !d && (getCommit repo s).isSome then [s] else []) := by
  unfold stitchSub
  cases getCommit repo s <;> cases d <;> simp

theorem stitchSub_message (repo : Repo) (m : String) (d : Bool)
    (n s : String) (st : StitchState) :
    (stitchSub repo m d n s st).commitMessage =
      st.commitMessage ++
        (if d then summaryIfPresent repo n s else "") := by
  unfold stitchSub summaryIfPresent
  cases getCommit repo s <;> cases d <;> simp [String.append_assoc]

theorem stitchSub_logs (repo : Repo) (m : String) (d : Bool) (n s : String)
    (st : StitchState) :
    (stitchSub repo m d n s st).logs =
      st.logs ++
        (if (getCommit repo s).isSome then [] else [(m, n, s)]) := by
  unfold stitchSub
  cases getCommit repo s <;> cases d <;> simp

theorem stitchSub_changes_lookup_ne (repo : Repo) (m : String) (d : Bool)
    {n : String} (s : String) (st : StitchState) {k : String} (h : k ≠ n) :
    (stitchSub repo m d n s st).changes.lookup k = st.changes.lookup k := by
  unfold stitchSub
  cases getCommit repo s <;> cases d <;> simp [lookup_setKey_ne h]

theorem stitchSub_changes_missing (repo : Repo) (m : String) (d : Bool)
    (n s : String) (st : StitchState) (h : getCommit repo s = none) :
    (stitchSub repo m d n s st).changes = st.changes := by
  unfold stitchSub
  rw [h]

theorem changeExcluded_changes_lookup_ne (n s : String) (st : StitchState)
    {k : String} (h : k ≠ n) :
    (changeExcluded n s st).changes.lookup k = st.changes.lookup k := by
  unfold changeExcluded
  simp [lookup_setKey_ne h]

/-- The added-submodule shas that get stitched (non-excluded and present in
the store), in order — the extra parents of the new commit in linked mode. -/
def addedStitchShas (repo : Repo) (exclude : String → Bool) :
    List (String × String) → List String
  | [] => []
  | a :: rest =>
    (if !exclude a.1 && (getCommit repo a.2).isSome then [a.2] else []) ++
      addedStitchShas repo exclude rest

/-- As `addedStitchShas`, for the changed table (new shas). -/
def changedStitchShas (repo : Repo) (exclude : String → Bool) :
    List (String × ChangedEntry) → List String
  | [] => []
  | c :: rest =>
    (if !exclude c.1 && (getCommit repo c.2.newSha).isSome
      then [c.2.newSha] else []) ++
      changedStitchShas repo exclude rest

/-- Detached-mode message suffix contributed by the added table. -/
def addedSummaries (repo : Repo) (exclude : String → Bool) :
    List (String × String) → String
  | [] => ""
  | a :: rest =>
    (if exclude a.1 then "" else summaryIfPresent repo a.1 a.2) ++
      addedSummaries repo exclude rest

/-- Detached-mode message suffix contributed by the changed table. -/
def changedSummaries (repo : Repo) (exclude : String → Bool) :
    List (String × ChangedEntry) → String
  | [] => ""
  | c :: rest =>
    (if exclude c.1 then "" else summaryIfPresent repo c.1 c.2.newSha) ++
      changedSummaries repo exclude rest

/-- The diagnostics logged for missing added submodule commits. -/
def addedMissingLogs (repo : Repo) (metaSha : String)
    (exclude : String → Bool) :
    List (String × String) → List (String × String × String)
  | [] => []
  | a :: rest =>
    (if !exclude a.1 && !(getCommit repo a.2).isSome
      then [(metaSha, a.1, a.2)] else []) ++
      addedMissingLogs repo metaSha exclude rest

/-- The diagnostics logged for missing changed submodule commits. -/
def changedMissingLogs (repo : Repo) (metaSha : String)
    (exclude : String → Bool) :
    List (String × ChangedEntry) → List (String × String × String)
  | [] => []
  | c :: rest =>
    (if !exclude c.1 && !(getCommit repo c.2.newSha).isSome
      then [(metaSha, c.1, c.2.newSha)] else []) ++
      changedMissingLogs repo metaSha exclude rest

/-- Field-wise characterisation of the `added` loop. -/
theorem processAdded_spec (repo : Repo) (metaSha : String)
    (exclude : String → Bool) (detach : Bool) :
    ∀ (l : List (String × String)) (st : StitchState),
      (processAdded repo metaSha exclude detach l st).updateModules =
          (st.updateModules || l.any fun a => exclude a.1) ∧
      (processAdded repo metaSha exclude detach l st).synthetics =
          st.synthetics ++ (l.filter fun a => !exclude a.1).map Prod.fst ∧
      (processAdded repo metaSha exclude detach l st).parentsToWrite =
          st.parentsToWrite ++
            (if detach then [] else addedStitchShas repo exclude l) ∧
      (processAdded repo metaSha exclude detach l st).commitMessage =
          st.commitMessage ++
            (if detach then addedSummaries repo exclude l else "") ∧
      (processAdded repo metaSha exclude detach l st).logs =
          st.logs ++ addedMissingLogs repo metaSha exclude l := by
  intro l
  induction l with
  | nil =>
    intro st
    simp [processAdded, addedStitchShas, addedSummaries, addedMissingLogs]
  | cons a rest ih =>
    intro st
    obtain ⟨name, sha⟩ := a
    simp only [processAdded]
    by_cases he : exclude name
    · refine ⟨?_, ?_, ?_, ?_, ?_⟩
      · rw [(ih _).1]; simp [changeExcluded, he]
      · rw [(ih _).2.1]; simp [changeExcluded, he]
      · rw [(ih _).2.2.1]; simp [changeExcluded, addedStitchShas, he]
      · rw [(ih _).2.2.2.1]; simp [changeExcluded, addedSummaries, he]
      · rw [(ih _).2.2.2.2]; simp [changeExcluded, addedMissingLogs, he]
    · refine ⟨?_, ?_, ?_, ?_, ?_⟩
      · rw [(ih _).1]; simp [stitchSub_updateModules, he]
      · rw [(ih _).2.1]; simp [stitchSub_synthetics, he]
      · rw [(ih _).2.2.1]
        cases detach <;> simp [stitchSub_parents, addedStitchShas, he]
      · rw [(ih _).2.2.2.1]
        cases detach <;>
          simp [stitchSub_message, addedSummaries, he, String.append_assoc]
      · rw [(ih _).2.2.2.2]
        cases hg : (getCommit repo sha).isSome <;>
          simp [stitchSub_logs, addedMissingLogs, he, hg]

/-- Field-wise characterisation of the `changed` loop.  Note that
`updateModules` is returned unchanged: an excluded changed path does not
mark the modules file. -/
theorem processChanged_spec (repo : Repo) (metaSha : String)
    (exclude : String → Bool) (detach : Bool) :
    ∀ (l : List (String × ChangedEntry)) (st : StitchState),
      (processChanged repo metaSha exclude detach l st).updateModules =
          st.updateModules ∧
      (processChanged repo metaSha exclude detach l st).synthetics =
          st.synthetics ++ (l.filter fun c => !exclude c.1).map Prod.fst ∧
      (processChanged repo metaSha exclude detach l st).parentsToWrite =
          st.parentsToWrite ++
            (if detach then [] else changedStitchShas repo exclude l) ∧
      (processChanged repo metaSha exclude detach l st).commitMessage =
          st.commitMessage ++
            (if detach then changedSummaries repo exclude l else "") ∧
      (processChanged repo metaSha exclude detach l st).logs =
          st.logs ++ changedMissingLogs repo metaSha exclude l := by
  intro l
  induction l with
  | nil =>
    intro st
    simp [processChanged, changedStitchShas, changedSummaries,
      changedMissingLogs]
  | cons c rest ih =>
    intro st
    obtain ⟨name, ch⟩ := c
    simp only [processChanged]
    by_cases he : exclude name
    · refine ⟨?_, ?_, ?_, ?_, ?_⟩
      · rw [(ih _).1]; simp [changeExcluded, he]
      · rw [(ih _).2.1]; simp [changeExcluded, he]
      · rw [(ih _).2.2.1]; simp [changeExcluded, changedStitchShas, he]
      · rw [(ih _).2.2.2.1]; simp [changeExcluded, changedSummaries, he]
      · rw [(ih _).2.2.2.2]; simp [changeExcluded, changedMissingLogs, he]
    · refine ⟨?_, ?_, ?_, ?_, ?_⟩
      · rw [(ih _).1]; simp [stitchSub_updateModules, he]
      · rw [(ih _).2.1]; simp [stitchSub_synthetics, he]
      · rw [(ih _).2.2.1]
        cases detach <;> simp [stitchSub_parents, changedStitchShas, he]
      · rw [(ih _).2.2.2.1]
        cases detach <;>
          simp [stitchSub_message, changedSummaries, he, String.append_assoc]
      · rw [(ih _).2.2.2.2]
        cases hg : (getCommit repo ch.newSha).isSome <;>
          simp [stitchSub_logs, changedMissingLogs, he, hg]

/-- Field-wise characterisation of the `removed` loop: only `changes` and
`updateModules` are touched. -/
theorem processRemoved_spec (exclude : String → Bool) :
    ∀ (l : List String) (st : StitchState),
      (processRemoved exclude l st).updateModules =
          (st.updateModules || l.any fun n => exclude n) ∧
      (processRemoved exclude l st).synthetics = st.synthetics ∧
      (processRemoved exclude l st).parentsToWrite = st.parentsToWrite ∧
      (processRemoved exclude l st).commitMessage = st.commitMessage ∧
      (processRemoved exclude l st).logs = st.logs := by
  intro l
  induction l with
  | nil => intro st; simp [processRemoved]
  | cons n rest ih =>
    intro st
    refine ⟨?_, ?_, ?_, ?_, ?_⟩
    · simp only [processRemoved]
      rw [(ih _).1]; simp [Bool.or_assoc]
    · simp only [processRemoved]; rw [(ih _).2.1]
    · simp only [processRemoved]; rw [(ih _).2.2.1]
    · simp only [processRemoved]; rw [(ih _).2.2.2.1]
    · simp only [processRemoved]; rw [(ih _).2.2.2.2]

theorem processAdded_changes_lookup_ne (repo : Repo) (metaSha : String)
    (exclude : String → Bool) (detach : Bool) :
    ∀ (l : List (String × String)) (st : StitchState) {k : String},
      (∀ a ∈ l, a.1 ≠ k) →
      (processAdded repo metaSha exclude detach l st).changes.lookup k =
        st.changes.lookup k := by
  intro l
  induction l with
  | nil => intro st k _; rfl
  | cons a rest ih =>
    intro st k h
    obtain ⟨name, sha⟩ := a
    have hkn : k ≠ name := Ne.symm (h (name, sha) (List.mem_cons_self _ _))
    have hrest : ∀ a ∈ rest, a.1 ≠ k := fun a ha =>
      h a (List.mem_cons_of_mem _ ha)
    simp only [processAdded]
    rw [ih _ hrest]
    by_cases he : exclude name
    · rw [if_pos he, changeExcluded_changes_lookup_ne _ _ _ hkn]
    · rw [if_neg he, stitchSub_changes_lookup_ne repo metaSha detach sha _ hkn]

theorem processChanged_changes_lookup_ne (repo : Repo) (metaSha : String)
    (exclude : String → Bool) (detach : Bool) :
    ∀ (l : List (String × ChangedEntry)) (st : StitchState) {k : String},
      (∀ c ∈ l, c.1 ≠ k) →
      (processChanged repo metaSha exclude detach l st).changes.lookup k =
        st.changes.lookup k := by
  intro l
  induction l with
  | nil => intro st k _; rfl
  | cons c rest ih =>
    intro st k h
    obtain ⟨name, ch⟩ := c
    have hkn : k ≠ name := Ne.symm (h (name, ch) (List.mem_cons_self _ _))
    have hrest : ∀ c ∈ rest, c.1 ≠ k := fun c hc =>
      h c (List.mem_cons_of_mem _ hc)
    simp only [processChanged]
    rw [ih _ hrest]
    by_cases he : exclude name
    · rw [if_pos he, changeExcluded_changes_lookup_ne _ _ _ hkn]
    · rw [if_neg he,
        stitchSub_changes_lookup_ne repo metaSha detach ch.newSha _ hkn]

theorem processRemoved_changes_lookup_ne (exclude : String → Bool) :
    ∀ (l : List String) (st : StitchState) {k : String},
      (∀ n ∈ l, n ≠ k) →
      (processRemoved exclude l st).changes.lookup k =
        st.changes.lookup k := by
  intro l
  induction l with
  | nil => intro st k _; rfl
  | cons n rest ih =>
    intro st k h
    have hkn : k ≠ n := Ne.symm (h n (List.mem_cons_self _ _))
    simp only [processRemoved]
    rw [ih _ fun m hm => h m (List.mem_cons_of_mem _ hm)]
    exact lookup_setKey_ne hkn

/-- When every occurrence of `name` in the added table points at the missing
sha, the added loop records no change at `name`. -/
theorem processAdded_changes_lookup_missing (repo : Repo) (metaSha : String)
    (exclude : String → Bool) (detach : Bool) :
    ∀ (l : List (String × String)) (st : StitchState) {name sha : String},
      (∀ a ∈ l, a.1 = name → a.2 = sha) → exclude name = false →
      getCommit repo sha = none →
      (processAdded repo metaSha exclude detach l st).changes.lookup name =
        st.changes.lookup name := by
  intro l
  induction l with
  | nil => intro st name sha _ _ _; rfl
  | cons a rest ih =>
    intro st name sha hocc he hmiss
    obtain ⟨n1, s1⟩ := a
    have hrest : ∀ a ∈ rest, a.1 = name → a.2 = sha := fun a ha =>
      hocc a (List.mem_cons_of_mem _ ha)
    simp only [processAdded]
    rw [ih _ hrest he hmiss]
    by_cases hn : n1 = name
    · have hs : s1 = sha := hocc (n1, s1) (List.mem_cons_self _ _) hn
      subst hn; subst hs
      rw [if_neg (by simp [he]),
        stitchSub_changes_missing _ _ _ _ _ _ hmiss]
    · have hkn : name ≠ n1 := Ne.symm hn
      by_cases hex : exclude n1
      · rw [if_pos hex, changeExcluded_changes_lookup_ne _ _ _ hkn]
      · rw [if_neg hex,
          stitchSub_changes_lookup_ne repo metaSha detach s1 _ hkn]

/-- As `processAdded_changes_lookup_missing`, for the changed loop. -/
theorem processChanged_changes_lookup_missing (repo : Repo)
    (metaSha : String) (exclude : String → Bool) (detach : Bool) :
    ∀ (l : List (String × ChangedEntry)) (st : StitchState)
      {name sha : String},
      (∀ c ∈ l, c.1 = name → c.2.newSha = sha) → exclude name = false →
      getCommit repo sha = none →
      (processChanged repo metaSha exclude detach l st).changes.lookup name =
        st.changes.lookup name := by
  intro l
  induction l with
  | nil => intro st name sha _ _ _; rfl
  | cons c rest ih =>
    intro st name sha hocc he hmiss
    obtain ⟨n1, ch⟩ := c
    have hrest : ∀ c ∈ rest, c.1 = name → c.2.newSha = sha := fun c hc =>
      hocc c (List.mem_cons_of_mem _ hc)
    simp only [processChanged]
    rw [ih _ hrest he hmiss]
    by_cases hn : n1 = name
    · have hs : ch.newSha = sha := hocc (n1, ch) (List.mem_cons_self _ _) hn
      subst hn
      rw [if_neg (by simp [he]), hs,
        stitchSub_changes_missing _ _ _ _ _ _ hmiss]
    · have hkn : name ≠ n1 := Ne.symm hn
      by_cases hex : exclude n1
      · rw [if_pos hex, changeExcluded_changes_lookup_ne _ _ _ hkn]
      · rw [if_neg hex,
          stitchSub_changes_lookup_ne repo metaSha detach ch.newSha _ hkn]

theorem mem_addedMissingLogs (repo : Repo) (metaSha : String)
    (exclude : String → Bool) {l : List (String × String)}
    {name sha : String} (hmem : (name, sha) ∈ l)
    (he : exclude name = false) (hm : getCommit repo sha = none) :
    (metaSha, name, sha) ∈ addedMissingLogs repo metaSha exclude l := by
  induction l with
  | nil => cases hmem
  | cons a rest ih =>
    rcases List.mem_cons.mp hmem with h | h
    · subst h
      simp [addedMissingLogs, he, hm]
    · exact List.mem_append_right _ (ih h)

theorem mem_changedMissingLogs (repo : Repo) (metaSha : String)
    (exclude : String → Bool) {l : List (String × ChangedEntry)}
    {name old sha : String} (hmem : (name, ChangedEntry.mk old sha) ∈ l)
    (he : exclude name = false) (hm : getCommit repo sha = none) :
    (metaSha, name, sha) ∈ changedMissingLogs repo metaSha exclude l := by
  induction l with
  | nil => cases hmem
  | cons c rest ih =>
    rcases List.mem_cons.mp hmem with h | h
    · subst h
      simp [changedMissingLogs, he, hm]
    · exact List.mem_append_right _ (ih h)

theorem modulesIf_synthetics (b : Bool) (st : StitchState)
    (c : List (String × Option Change)) :
    (if b = true then { st with changes := c } else st).synthetics =
      st.synthetics := by
  cases b <;> rfl

theorem modulesIf_parents (b : Bool) (st : StitchState)
    (c : List (String × Option Change)) :
    (if b = true then { st with changes := c } else st).parentsToWrite =
      st.parentsToWrite := by
  cases b <;> rfl

theorem modulesIf_message (b : Bool) (st : StitchState)
    (c : List (String × Option Change)) :
    (if b = true then { st with changes := c } else st).commitMessage =
      st.commitMessage := by
  cases b <;> rfl

theorem modulesIf_logs (b : Bool) (st : StitchState)
    (c : List (String × Option Change)) :
    (if b = true then { st with changes := c } else st).logs = st.logs := by
  cases b <;> rfl

theorem modulesIf_changes_lookup_ne (b : Bool) (st : StitchState)
    (c : Option Change) {k : String} (h : k ≠ modulesFileName) :
    (if b = true then
        { st with changes := setKey st.changes modulesFileName c }
      else st).changes.lookup k = st.changes.lookup k := by
  cases b
  · rfl
  · simp [lookup_setKey_ne h]

/-- C10: `writeStitchedCommit` creates exactly one ref — the converted
marker of the original sha, pointing at the new commit — and deletes none.
The `synthetics` cleanup list collects exactly the non-excluded added and
changed submodule names, but nothing ever consumes it: no ref removal
exists in the function, so the `refs/stitched/fetched` refs survive,
contrary to the function's documentation. -/
theorem writeStitchedCommit_ref_effects (repo : Repo) (commitSha : String)
    (commit : CommitData) (parents : List (String × CommitData))
    (exclude : String → Bool) (detach : Bool) (subChanges : SubChanges)
    (newUrls : List (String × String))
    (writeTreeF : Option String → List (String × Option Change) → String)
    (hashCommit : CommitData → String) :
    (writeStitchedCommit repo commitSha commit parents exclude detach
        subChanges newUrls writeTreeF hashCommit).refsCreated =
      [(convertedRefName commitSha,
        (writeStitchedCommit repo commitSha commit parents exclude detach
          subChanges newUrls writeTreeF hashCommit).newSha)] ∧
    (writeStitchedCommit repo commitSha commit parents exclude detach
        subChanges newUrls writeTreeF hashCommit).refsDeleted = [] ∧
    (writeStitchedCommit repo commitSha commit parents exclude detach
        subChanges newUrls writeTreeF hashCommit).synthetics =
      (subChanges.added.filter fun a => !exclude a.1).map Prod.fst ++
        (subChanges.changed.filter fun c => !exclude c.1).map Prod.fst := by
  refine ⟨rfl, rfl, ?_⟩
  simp only [writeStitchedCommit]
  rw [modulesIf_synthetics,
    (processRemoved_spec exclude subChanges.removed _).2.1,
    (processChanged_spec repo commitSha exclude detach subChanges.changed
      _).2.1,
    (processAdded_spec repo commitSha exclude detach subChanges.added _).2.1]
  simp

/-- C6: the stitched commit copies author, committer and message encoding
verbatim from the original; in linked mode its parents are the given
converted parents followed by the stitched submodule commits (added table
first, then changed) and its message is the original message; in detached
mode its parents are exactly the given converted parents and its message is
the original message with a summary appended per stitched submodule. -/
theorem writeStitchedCommit_commit_fields (repo : Repo) (commitSha : String)
    (commit : CommitData) (parents : List (String × CommitData))
    (exclude : String → Bool) (detach : Bool) (subChanges : SubChanges)
    (newUrls : List (String × String))
    (writeTreeF : Option String → List (String × Option Change) → String)
    (hashCommit : CommitData → String) :
    (writeStitchedCommit repo commitSha commit parents exclude detach
        subChanges newUrls writeTreeF hashCommit).newCommit.author =
      commit.author ∧
    (writeStitchedCommit repo commitSha commit parents exclude detach
        subChanges newUrls writeTreeF hashCommit).newCommit.committer =
      commit.committer ∧
    (writeStitchedCommit repo commitSha commit parents exclude detach
        subChanges newUrls writeTreeF
        hashCommit).newCommit.messageEncoding = commit.messageEncoding ∧
    (writeStitchedCommit repo commitSha commit parents exclude detach
        subChanges newUrls writeTreeF hashCommit).newCommit.parents =
      parents.map Prod.fst ++
        (if detach = true then []
          else addedStitchShas repo exclude subChanges.added ++
            changedStitchShas repo exclude subChanges.changed) ∧
    (writeStitchedCommit repo commitSha commit parents exclude detach
        subChanges newUrls writeTreeF hashCommit).newCommit.message =
      commit.message ++
        (if detach = true then
          addedSummaries repo exclude subChanges.added ++
            changedSummaries repo exclude subChanges.changed
          else "") := by
  refine ⟨rfl, rfl, rfl, ?_, ?_⟩
  · simp only [writeStitchedCommit]
    rw [modulesIf_parents,
      (processRemoved_spec exclude subChanges.removed _).2.2.1,
      (processChanged_spec repo commitSha exclude detach subChanges.changed
        _).2.2.1,
      (processAdded_spec repo commitSha exclude detach subChanges.added
        _).2.2.1]
    cases detach <;> simp [List.append_assoc]
  · simp only [writeStitchedCommit]
    rw [modulesIf_message,
      (processRemoved_spec exclude subChanges.removed _).2.2.2.1,
      (processChanged_spec repo commitSha exclude detach subChanges.changed
        _).2.2.2.1,
      (processAdded_spec repo commitSha exclude detach subChanges.added
        _).2.2.2.1]
    cases detach <;> simp [String.append_assoc]

/-- C2: when a non-excluded added or changed submodule's commit is missing
from the store, `writeStitchedCommit` does not fail: it logs the diagnostic
triple (meta-commit id, submodule path, missing sha), records no tree
change at that path, and still produces the stitched commit and exactly the
converted-marker ref from the original id to the new commit id.  The
coherence hypotheses say that every occurrence of `name` in the change set
points at the missing `sha` and that `name` is not a removed path nor the
modules file path. -/
theorem writeStitchedCommit_missing_sub (repo : Repo) (commitSha : String)
    (commit : CommitData) (parents : List (String × CommitData))
    (exclude : String → Bool) (detach : Bool) (subChanges : SubChanges)
    (newUrls : List (String × String))
    (writeTreeF : Option String → List (String × Option Change) → String)
    (hashCommit : CommitData → String) (name sha : String)
    (hocc : (name, sha) ∈ subChanges.added ∨
      ∃ old, (name, ChangedEntry.mk old sha) ∈ subChanges.changed)
    (ha : ∀ a ∈ subChanges.added, a.1 = name → a.2 = sha)
    (hc : ∀ c ∈ subChanges.changed, c.1 = name → c.2.newSha = sha)
    (hr : ∀ n ∈ subChanges.removed, n ≠ name)
    (hmf : name ≠ modulesFileName)
    (he : exclude name = false)
    (hmiss : getCommit repo sha = none) :
    (commitSha, name, sha) ∈
      (writeStitchedCommit repo commitSha commit parents exclude detach
        subChanges newUrls writeTreeF hashCommit).logs ∧
    (writeStitchedCommit repo commitSha commit parents exclude detach
        subChanges newUrls writeTreeF hashCommit).changes.lookup name =
      none ∧
    (writeStitchedCommit repo commitSha commit parents exclude detach
        subChanges newUrls writeTreeF hashCommit).refsCreated =
      [(convertedRefName commitSha,
        (writeStitchedCommit repo commitSha commit parents exclude detach
          subChanges newUrls writeTreeF hashCommit).newSha)] ∧
    (writeStitchedCommit repo commitSha commit parents exclude detach
        subChanges newUrls writeTreeF hashCommit).refsDeleted = [] := by
  refine ⟨?_, ?_, rfl, rfl⟩
  · simp only [writeStitchedCommit]
    rw [modulesIf_logs,
      (processRemoved_spec exclude subChanges.removed _).2.2.2.2,
      (processChanged_spec repo commitSha exclude detach subChanges.changed
        _).2.2.2.2,
      (processAdded_spec repo commitSha exclude detach subChanges.added
        _).2.2.2.2]
    rcases hocc with h | ⟨old, h⟩
    · exact List.mem_append_left _ (List.mem_append_right _
        (mem_addedMissingLogs repo commitSha exclude h he hmiss))
    · exact List.mem_append_right _
        (mem_changedMissingLogs repo commitSha exclude h he hmiss)
  · simp only [writeStitchedCommit]
    rw [modulesIf_changes_lookup_ne _ _ _ hmf,
      processRemoved_changes_lookup_ne exclude subChanges.removed _ hr,
      processChanged_changes_lookup_missing repo commitSha exclude detach
        subChanges.changed _ hc he hmiss,
      processAdded_changes_lookup_missing repo commitSha exclude detach
        subChanges.added _ ha he hmiss]
    rfl

/-- Witness for `writeStitchedCommit_missing_sub`: a store holding nothing,
one added submodule `s` at the missing sha `ff00`. -/
theorem writeStitchedCommit_missing_sub_witness :
    ((("s", "ff00") ∈ ([("s", "ff00")] : List (String × String)) ∨
        ∃ old, ("s", ChangedEntry.mk old "ff00") ∈
          ([] : List (String × ChangedEntry))) ∧
      ("s" : String) ≠ modulesFileName ∧
      getCommit (Repo.mk [] []) "ff00" = none) ∧
    ("aa00", "s", "ff00") ∈
      (writeStitchedCommit (Repo.mk [] []) "aa00"
        (CommitData.mk "mt" [] (Signature.mk "A" "a" "t")
          (Signature.mk "A" "a" "t") "msg" "UTF-8")
        [] (fun _ => false) false
        (SubChanges.mk [("s", "ff00")] [] []) []
        (fun _ _ => "tree0") (fun _ => "new0")).logs ∧
    (writeStitchedCommit (Repo.mk [] []) "aa00"
        (CommitData.mk "mt" [] (Signature.mk "A" "a" "t")
          (Signature.mk "A" "a" "t") "msg" "UTF-8")
        [] (fun _ => false) false
        (SubChanges.mk [("s", "ff00")] [] []) []
        (fun _ _ => "tree0") (fun _ => "new0")).changes.lookup "s" =
      none := by
  refine ⟨⟨Or.inl (by decide), by decide, by decide⟩, ?_, ?_⟩
  · exact (writeStitchedCommit_missing_sub (Repo.mk [] []) "aa00"
      (CommitData.mk "mt" [] (Signature.mk "A" "a" "t")
        (Signature.mk "A" "a" "t") "msg" "UTF-8")
      [] (fun _ => false) false (SubChanges.mk [("s", "ff00")] [] []) []
      (fun _ _ => "tree0") (fun _ => "new0") "s" "ff00"
      (Or.inl (by decide)) (by decide) (by decide) (by decide) (by decide)
      (by decide) (by decide)).1
  · exact (writeStitchedCommit_missing_sub (Repo.mk [] []) "aa00"
      (CommitData.mk "mt" [] (Signature.mk "A" "a" "t")
        (Signature.mk "A" "a" "t") "msg" "UTF-8")
      [] (fun _ => false) false (SubChanges.mk [("s", "ff00")] [] []) []
      (fun _ _ => "tree0") (fun _ => "new0") "s" "ff00"
      (Or.inl (by decide)) (by decide) (by decide) (by decide) (by decide)
      (by decide) (by decide)).2.1

/-- C5, counterexample: a change set whose only entry is a *changed*
excluded submodule `s` leaves `updateModules` false and records no
configuration-blob change at the modules file path (the excluded pointer
itself is recorded as a COMMIT-mode change), although the claim requires
the blob to be regenerated in exactly this situation. -/
theorem writeStitchedCommit_changed_excluded_counterexample :
    (writeStitchedCommit (Repo.mk [] []) "aa00"
        (CommitData.mk "mt" [] (Signature.mk "A" "a" "t")
          (Signature.mk "A" "a" "t") "msg" "UTF-8")
        [] (fun n => n == "s") false
        (SubChanges.mk [] [("s", ChangedEntry.mk "bb00" "cc00")] [])
        [("s", "url")] (fun _ _ => "tree0")
        (fun _ => "new0")).updateModules = false ∧
    (writeStitchedCommit (Repo.mk [] []) "aa00"
        (CommitData.mk "mt" [] (Signature.mk "A" "a" "t")
          (Signature.mk "A" "a" "t") "msg" "UTF-8")
        [] (fun n => n == "s") false
        (SubChanges.mk [] [("s", ChangedEntry.mk "bb00" "cc00")] [])
        [("s", "url")] (fun _ _ => "tree0")
        (fun _ => "new0")).changes.lookup modulesFileName = none ∧
    (writeStitchedCommit (Repo.mk [] []) "aa00"
        (CommitData.mk "mt" [] (Signature.mk "A" "a" "t")
          (Signature.mk "A" "a" "t") "msg" "UTF-8")
        [] (fun n => n == "s") false
        (SubChanges.mk [] [("s", ChangedEntry.mk "bb00" "cc00")] [])
        [("s", "url")] (fun _ _ => "tree0")
        (fun _ => "new0")).changes.lookup "s" =
      some (some (Change.mk "cc00" FILEMODE_COMMIT)) :=
  ⟨by decide, by decide, by decide⟩

/-- C5, amended: the synthesized configuration blob — holding exactly the
excluded paths' urls — is regenerated and recorded at the modules file path
exactly when some excluded path was *added or removed* at the commit; a
changed excluded path records its new pointer but does not trigger
regeneration. -/
theorem writeStitchedCommit_modules (repo : Repo) (commitSha : String)
    (commit : CommitData) (parents : List (String × CommitData))
    (exclude : String → Bool) (detach : Bool) (subChanges : SubChanges)
    (newUrls : List (String × String))
    (writeTreeF : Option String → List (String × Option Change) → String)
    (hashCommit : CommitData → String)
    (h1 : ∀ a ∈ subChanges.added, a.1 ≠ modulesFileName)
    (h2 : ∀ c ∈ subChanges.changed, c.1 ≠ modulesFileName)
    (h3 : ∀ n ∈ subChanges.removed, n ≠ modulesFileName) :
    (writeStitchedCommit repo commitSha commit parents exclude detach
        subChanges newUrls writeTreeF hashCommit).updateModules =
      ((subChanges.added.any fun a => exclude a.1) ||
        subChanges.removed.any fun n => exclude n) ∧
    (writeStitchedCommit repo commitSha commit parents exclude detach
        subChanges newUrls writeTreeF hashCommit).changes.lookup
        modulesFileName =
      (if ((subChanges.added.any fun a => exclude a.1) ||
            subChanges.removed.any fun n => exclude n) = true
        then some (some (computeModulesFile newUrls exclude))
        else none) := by
  have hU : (writeStitchedCommit repo commitSha commit parents exclude
      detach subChanges newUrls writeTreeF hashCommit).updateModules =
      ((subChanges.added.any fun a => exclude a.1) ||
        subChanges.removed.any fun n => exclude n) := by
    simp only [writeStitchedCommit]
    rw [(processRemoved_spec exclude subChanges.removed _).1,
      (processChanged_spec repo commitSha exclude detach subChanges.changed
        _).1,
      (processAdded_spec repo commitSha exclude detach subChanges.added _).1]
    simp
  refine ⟨hU, ?_⟩
  simp only [writeStitchedCommit] at hU ⊢
  set st3 := processRemoved exclude subChanges.removed
      (processChanged repo commitSha exclude detach subChanges.changed
        (processAdded repo commitSha exclude detach subChanges.added
          { updateModules := false, changes := [],
            commitMessage := commit.message,
            parentsToWrite := parents.map Prod.fst, synthetics := [],
            logs := [] })) with hst3
  by_cases hb : st3.updateModules = true
  · rw [if_pos hb, if_pos (by rw [← hU]; exact hb)]
    simp [lookup_setKey_self]
  · rw [if_neg hb, if_neg (by rw [← hU]; exact hb), hst3,
      processRemoved_changes_lookup_ne exclude subChanges.removed _ h3,
      processChanged_changes_lookup_ne repo commitSha exclude detach
        subChanges.changed _ h2,
      processAdded_changes_lookup_ne repo commitSha exclude detach
        subChanges.added _ h1]
    rfl

/-- Witness for `writeStitchedCommit_modules`: one added excluded submodule
`s`; the modules file is regenerated with `s`'s url. -/
theorem writeStitchedCommit_modules_witness :
    ((∀ a ∈ ([("s", "dd00")] : List (String × String)),
        a.1 ≠ modulesFileName) ∧
      (∀ c ∈ ([] : List (String × ChangedEntry)), c.1 ≠ modulesFileName) ∧
      (∀ n ∈ ([] : List String), n ≠ modulesFileName)) ∧
    (writeStitchedCommit (Repo.mk [] []) "aa00"
        (CommitData.mk "mt" [] (Signature.mk "A" "a" "t")
          (Signature.mk "A" "a" "t") "msg" "UTF-8")
        [] (fun n => n == "s") false
        (SubChanges.mk [("s", "dd00")] [] [])
        [("s", "url")] (fun _ _ => "tree0")
        (fun _ => "new0")).changes.lookup modulesFileName =
      some (some (computeModulesFile [("s", "url")] (fun n => n == "s"))) := by
  refine ⟨⟨by decide, by decide, by decide⟩, ?_⟩
  have h := (writeStitchedCommit_modules (Repo.mk [] []) "aa00"
    (CommitData.mk "mt" [] (Signature.mk "A" "a" "t")
      (Signature.mk "A" "a" "t") "msg" "UTF-8")
    [] (fun n => n == "s") false (SubChanges.mk [("s", "dd00")] [] [])
    [("s", "url")] (fun _ _ => "tree0") (fun _ => "new0")
    (by decide) (by decide) (by decide)).2
  rw [h]
  decide

/-!
## Fetch planner (`exports.listFetches`) and executor
(`exports.fetchSubCommits`)

`GitUtil.fetchSha` is external code of the repository not present under the
sources; it is modelled from the spec (§4.4: the executor "fetches missing
objects into the target store", i.e. an object already present is not
fetched again) with a success oracle for the network.
`DoWorkQueue.doInParallel` is modelled as sequential iteration; concurrent
interleavings are outside the embedding.
-/

/-- One entry of a submodule's fetch list, as built by `listFetches`:
the meta-commit that introduced the sha, the configured (unresolved) url,
and the submodule sha to fetch. -/
structure FetchTriple where
  metaSha : String
  url : String
  sha : String
deriving DecidableEq, Repr

/-- The store/effect state threaded through the fetch phase: object shas
present in the target store, network fetch operations issued (resolved
url, sha), refs created, and logged fetch failures (resolved url). -/
structure FetchState where
  present : List String
  netOps : List (String × String)
  refs : List (String × String)
  failLogs : List String
deriving DecidableEq, Repr

/-- Modelled from the spec: `GitUtil.fetchSha(repo, url, sha)` — external
module, absent from the sources.  Per spec §4.4 only missing objects are
fetched: when `sha` is already present no network operation is issued;
otherwise one is issued against the resolved url and succeeds or fails
according to `fetchOk`.  Returns the new state and whether the call
completed without throwing. -/
def fetchSha (fetchOk : String → String → Bool) (subUrl sha : String)
    (s : FetchState) : FetchState × Bool :=
  if s.present.contains sha then (s, true)
  else
    let s' := { s with netOps := s.netOps ++ [(subUrl, sha)] }
    if fetchOk subUrl sha then ({ s' with present := sha :: s'.present }, true)
    else (s', false)

/-- `exports.fetchSubCommits` (lines 541–561): for each triple in order,
resolve the url (external `SubmoduleConfigUtil.resolveSubmoduleUrl`,
supplied as `resolve`), fetch the sha, and on success create the
fetched-marker ref.  A failed fetch is logged and the function *returns*
(the `// RETURN` branch), dropping the remaining triples of the list. -/
def fetchSubCommits (resolve : String → String → String)
    (fetchOk : String → String → Bool) (url : String) :
    List FetchTriple → FetchState → FetchState
  | [], s => s
  | f :: rest, s =>
    let subUrl := resolve url f.url
    let r := fetchSha fetchOk subUrl f.sha s
    if r.2 then
      fetchSubCommits resolve fetchOk url rest
        { r.1 with refs :=
            r.1.refs ++ [(fetchedSubRefName f.metaSha f.sha, f.sha)] }
    else
      { r.1 with failLogs := r.1.failLogs ++ [subUrl] }

/-- JS `Object.assign(old, new)`: overwrite existing keys in place, append
new ones. -/
def jsAssign (old nw : List (String × String)) : List (String × String) :=
  nw.foldl (fun m kv => setKey m kv.1 kv.2) old

/-- The `getUrl` closure of `listFetches` (lines 309–322): look the
submodule's url up in the accumulated table, loading the commit's url table
(oracle `urlsOf`, the external
`SubmoduleConfigUtil.getSubmodulesFromCommit`) when absent. -/
def getUrlStep (urlsOf : String → List (String × String))
    (commitSha sub : String) (urls : List (String × String)) :
    Option String × List (String × String) :=
  match urls.lookup sub with
  | some u => (some u, urls)
  | none =>
    let urls' := jsAssign urls (urlsOf commitSha)
    (urls'.lookup sub, urls')

/-- The `addTodo` closure (lines 338–350): append the triple to the
submodule's list in the result map, creating the list if needed.  An
undefined url (submodule missing from every loaded table) is recorded as
the empty string. -/
def addTodo (result : List (String × List FetchTriple)) (subName : String)
    (t : FetchTriple) : List (String × List FetchTriple) :=
  match result.lookup subName with
  | none => result ++ [(subName, [t])]
  | some ts => setKey result subName (ts ++ [t])

/-- The added-table walk of one commit in `listFetches` (lines 357–364). -/
def listFetchesAdded (urlsOf : String → List (String × String))
    (exclude : String → Bool) (commitSha : String) :
    List (String × String) →
      List (String × String) × List (String × List FetchTriple) →
      List (String × String) × List (String × List FetchTriple)
  | [], st => st
  | (name, sha) :: rest, (urls, result) =>
    if exclude name then
      listFetchesAdded urlsOf exclude commitSha rest (urls, result)
    else
      let (u, urls') := getUrlStep urlsOf commitSha name urls
      listFetchesAdded urlsOf exclude commitSha rest
        (urls', addTodo result name ⟨commitSha, u.getD "", sha⟩)

/-- The changed-table walk of one commit in `listFetches`
(lines 366–373). -/
def listFetchesChanged (urlsOf : String → List (String × String))
    (exclude : String → Bool) (commitSha : String) :
    List (String × ChangedEntry) →
      List (String × String) × List (String × List FetchTriple) →
      List (String × String) × List (String × List FetchTriple)
  | [], st => st
  | (name, ch) :: rest, (urls, result) =>
    if exclude name then
      listFetchesChanged urlsOf exclude commitSha rest (urls, result)
    else
      let (u, urls') := getUrlStep urlsOf commitSha name urls
      listFetchesChanged urlsOf exclude commitSha rest
        (urls', addTodo result name ⟨commitSha, u.getD "", ch.newSha⟩)

/-- The main loop of `listFetches` (lines 352–374), over the already
reversed commit list; `changesOf` is the per-commit result of the external
`SubmoduleUtil.getSubmoduleChanges` (precollected by a work queue in the
source, a pure oracle here). -/
def listFetchesLoop (changesOf : String → SubChanges)
    (urlsOf : String → List (String × String)) (exclude : String → Bool) :
    List String →
      List (String × String) × List (String × List FetchTriple) →
      List (String × String) × List (String × List FetchTriple)
  | [], st => st
  | c :: rest, st =>
    let sc := changesOf c
    let st1 := listFetchesAdded urlsOf exclude c sc.added st
    let st2 := listFetchesChanged urlsOf exclude c sc.changed st1
    listFetchesLoop changesOf urlsOf exclude rest st2

/-- `exports.listFetches` (lines 298–376): the prefetch plan — a map from
submodule name to its fetch triples, collected over `toFetch` in reversed
order. -/
def listFetches (changesOf : String → SubChanges)
    (urlsOf : String → List (String × String)) (exclude : String → Bool)
    (toFetch : List String) : List (String × List FetchTriple) :=
  (listFetchesLoop changesOf urlsOf exclude toFetch.reverse ([], [])).2

/-- The fetch phase of `stitch.js` (lines 134–152): `fetchSubCommits` run
over every submodule's list of the plan (sequential model of the work
queue). -/
def runFetchPlan (resolve : String → String → String)
    (fetchOk : String → String → Bool) (url : String)
    (plan : List (String × List FetchTriple)) (s : FetchState) :
    FetchState :=
  plan.foldl (fun s g => fetchSubCommits resolve fetchOk url g.2 s) s

/-- Under all-successful fetches, every triple of the list gets its
fetched-marker ref, in order. -/
theorem fetchSubCommits_refs_of_success (resolve : String → String → String)
    (fetchOk : String → String → Bool) (url : String) :
    ∀ (l : List FetchTriple) (s : FetchState),
      (∀ t ∈ l, fetchOk (resolve url t.url) t.sha = true) →
      (fetchSubCommits resolve fetchOk url l s).refs =
        s.refs ++ l.map fun t => (fetchedSubRefName t.metaSha t.sha, t.sha) := by
  intro l
  induction l with
  | nil => intro s _; simp [fetchSubCommits]
  | cons f rest ih =>
    intro s hok
    have hokf : fetchOk (resolve url f.url) f.sha = true :=
      hok f (List.mem_cons_self _ _)
    have hokr : ∀ t ∈ rest, fetchOk (resolve url t.url) t.sha = true :=
      fun t ht => hok t (List.mem_cons_of_mem _ ht)
    simp only [fetchSubCommits, fetchSha]
    by_cases hp : s.present.contains f.sha = true
    · rw [if_pos hp]
      simp only [if_true]
      rw [ih _ hokr]
      simp [List.append_assoc]
    · rw [if_neg hp, if_pos hokf]
      simp only [if_true]
      rw [ih _ hokr]
      simp [List.append_assoc]

/-- The first failing fetch aborts the rest of the list: the state is the
one reached after the successful prefix, plus the failed network attempt
and its log line; the triples after the failure contribute nothing. -/
theorem fetchSubCommits_abort_eq (resolve : String → String → String)
    (fetchOk : String → String → Bool) (url : String)
    (l2 : List FetchTriple) (bad : FetchTriple) :
    ∀ (l1 : List FetchTriple) (s0 : FetchState),
      (∀ t ∈ l1, fetchOk (resolve url t.url) t.sha = true) →
      fetchOk (resolve url bad.url) bad.sha = false →
      (fetchSubCommits resolve fetchOk url l1 s0).present.contains bad.sha
          = false →
      fetchSubCommits resolve fetchOk url (l1 ++ bad :: l2) s0 =
        { fetchSubCommits resolve fetchOk url l1 s0 with
            netOps := (fetchSubCommits resolve fetchOk url l1 s0).netOps ++
              [(resolve url bad.url, bad.sha)],
            failLogs :=
              (fetchSubCommits resolve fetchOk url l1 s0).failLogs ++
                [resolve url bad.url] } := by
  intro l1
  induction l1 with
  | nil =>
    intro s0 _ hbad hpres
    simp only [fetchSubCommits] at hpres
    simp only [List.nil_append, fetchSubCommits, fetchSha]
    have h1 : ¬s0.present.contains bad.sha = true := fun hm => by
      rw [hm] at hpres
      exact Bool.noConfusion hpres
    have h2 : ¬fetchOk (resolve url bad.url) bad.sha = true := by
      simp [hbad]
    rw [if_neg h1, if_neg h2]
    simp
  | cons f rest ih =>
    intro s0 hok hbad hpres
    have hokf : fetchOk (resolve url f.url) f.sha = true :=
      hok f (List.mem_cons_self _ _)
    have hokr : ∀ t ∈ rest, fetchOk (resolve url t.url) t.sha = true :=
      fun t ht => hok t (List.mem_cons_of_mem _ ht)
    simp only [List.cons_append, fetchSubCommits, fetchSha] at hpres ⊢
    by_cases hp : s0.present.contains f.sha = true
    · rw [if_pos hp] at hpres ⊢
      simp only [if_true] at hpres ⊢
      exact ih _ hokr hbad hpres
    · rw [if_neg hp, if_pos hokf] at hpres ⊢
      simp only [if_true] at hpres ⊢
      exact ih _ hokr hbad hpres

/-- C3 (amended): `fetchSubCommits` is not per-triple fault tolerant: the
first failing fetch is logged and the function returns at once, so the
failing triple and every later triple in the list are dropped (no marker
refs for them), while each triple of the successful prefix did get its
fetched-marker ref for its (metaSha, sha). -/
theorem fetchSubCommits_failure_semantics (resolve : String → String → String)
    (fetchOk : String → String → Bool) (url : String)
    (l1 l2 : List FetchTriple) (bad : FetchTriple) (s0 : FetchState)
    (hok : ∀ t ∈ l1, fetchOk (resolve url t.url) t.sha = true)
    (hbad : fetchOk (resolve url bad.url) bad.sha = false)
    (hpres : (fetchSubCommits resolve fetchOk url l1 s0).present.contains
      bad.sha = false) :
    fetchSubCommits resolve fetchOk url (l1 ++ bad :: l2) s0 =
      { fetchSubCommits resolve fetchOk url l1 s0 with
          netOps := (fetchSubCommits resolve fetchOk url l1 s0).netOps ++
            [(resolve url bad.url, bad.sha)],
          failLogs := (fetchSubCommits resolve fetchOk url l1 s0).failLogs ++
            [resolve url bad.url] } ∧
    (fetchSubCommits resolve fetchOk url l1 s0).refs =
      s0.refs ++ l1.map fun t => (fetchedSubRefName t.metaSha t.sha, t.sha) :=
  ⟨fetchSubCommits_abort_eq resolve fetchOk url l2 bad l1 s0 hok hbad hpres,
    fetchSubCommits_refs_of_success resolve fetchOk url l1 s0 hok⟩

/-- Witness for `fetchSubCommits_failure_semantics`: the first triple
succeeds, the second fails, the third is dropped. -/
theorem fetchSubCommits_failure_semantics_witness :
    ((∀ t ∈ ([⟨"m1", "u1", "s1"⟩] : List FetchTriple),
        (fun _ sh => sh == "s1" : String → String → Bool)
          ((fun r u => r ++ "/" ++ u) "R" t.url) t.sha = true) ∧
      (fun _ sh => sh == "s1" : String → String → Bool)
          ((fun r u => r ++ "/" ++ u) "R" "u2") "s2" = false) ∧
    fetchSubCommits (fun r u => r ++ "/" ++ u) (fun _ sh => sh == "s1") "R"
        ([⟨"m1", "u1", "s1"⟩] ++ ⟨"m2", "u2", "s2"⟩ ::
          [⟨"m3", "u3", "s3"⟩]) ⟨[], [], [], []⟩ =
      { fetchSubCommits (fun r u => r ++ "/" ++ u) (fun _ sh => sh == "s1")
          "R" [⟨"m1", "u1", "s1"⟩] ⟨[], [], [], []⟩ with
          netOps := (fetchSubCommits (fun r u => r ++ "/" ++ u)
            (fun _ sh => sh == "s1") "R" [⟨"m1", "u1", "s1"⟩]
            ⟨[], [], [], []⟩).netOps ++ [("R/u2", "s2")],
          failLogs := (fetchSubCommits (fun r u => r ++ "/" ++ u)
            (fun _ sh => sh == "s1") "R" [⟨"m1", "u1", "s1"⟩]
            ⟨[], [], [], []⟩).failLogs ++ ["R/u2"] } := by
  refine ⟨⟨by decide, by decide⟩, ?_⟩
  exact (fetchSubCommits_failure_semantics (fun r u => r ++ "/" ++ u)
    (fun _ sh => sh == "s1") "R" [⟨"m1", "u1", "s1"⟩] [⟨"m3", "u3", "s3"⟩]
    ⟨"m2", "u2", "s2"⟩ ⟨[], [], [], []⟩ (by decide) (by decide)
    (by decide)).1

/-- C3, counterexample: with both fetches failing, only the first triple's
fetch is even attempted — the claim's promise that every other triple in
the list is still fetched, with a marker per success, fails at the second
triple, whose fetch is never issued. -/
theorem fetchSubCommits_abort_counterexample :
    (fetchSubCommits (fun r u => r ++ "/" ++ u) (fun _ _ => false) "R"
        [⟨"m1", "u1", "s1"⟩, ⟨"m2", "u2", "s2"⟩]
        ⟨[], [], [], []⟩).netOps = [("R/u1", "s1")] ∧
    (fetchSubCommits (fun r u => r ++ "/" ++ u) (fun _ _ => false) "R"
        [⟨"m1", "u1", "s1"⟩, ⟨"m2", "u2", "s2"⟩]
        ⟨[], [], [], []⟩).refs = [] ∧
    (fetchSubCommits (fun r u => r ++ "/" ++ u) (fun _ _ => false) "R"
        [⟨"m1", "u1", "s1"⟩, ⟨"m2", "u2", "s2"⟩]
        ⟨[], [], [], []⟩).failLogs = ["R/u1"] :=
  ⟨by decide, by decide, by decide⟩

/-- Invariant carried through the fetch phase under all-successful
fetches: the shas of the issued network operations are distinct, and each
issued sha is present in the store afterwards. -/
theorem fetchSubCommits_netOps_nodup (resolve : String → String → String)
    (fetchOk : String → String → Bool) (url : String)
    (hok : ∀ u sh, fetchOk u sh = true) :
    ∀ (l : List FetchTriple) (s : FetchState),
      ((s.netOps.map Prod.snd).Nodup ∧
        ∀ op ∈ s.netOps, op.2 ∈ s.present) →
      (((fetchSubCommits resolve fetchOk url l s).netOps.map
          Prod.snd).Nodup ∧
        ∀ op ∈ (fetchSubCommits resolve fetchOk url l s).netOps,
          op.2 ∈ (fetchSubCommits resolve fetchOk url l s).present) := by
  intro l
  induction l with
  | nil => intro s h; exact h
  | cons f rest ih =>
    intro s h
    simp only [fetchSubCommits, fetchSha]
    by_cases hp : s.present.contains f.sha = true
    · rw [if_pos hp]
      simp only [if_true]
      exact ih _ ⟨h.1, h.2⟩
    · rw [if_neg hp, if_pos (hok _ _)]
      simp only [if_true]
      refine ih _ ⟨?_, ?_⟩
      · simp only [List.map_append, List.map_cons, List.map_nil]
        rw [List.nodup_append]
        refine ⟨h.1, List.nodup_singleton _, ?_⟩
        intro x hx hx1
        rcases List.mem_map.mp hx with ⟨op, hop, hxo⟩
        have hxp : x ∈ s.present := hxo ▸ h.2 op hop
        rcases List.mem_singleton.mp hx1 with rfl
        exact hp (List.elem_eq_true_of_mem hxp)
      · intro op hop
        rcases List.mem_append.mp hop with h1 | h1
        · exact List.mem_cons_of_mem _ (h.2 op h1)
        · rcases List.mem_singleton.mp h1 with rfl
          exact List.mem_cons_self _ _

/-- The invariant extends over the whole plan. -/
theorem runFetchPlan_netOps_nodup (resolve : String → String → String)
    (fetchOk : String → String → Bool) (url : String)
    (hok : ∀ u sh, fetchOk u sh = true) :
    ∀ (plan : List (String × List FetchTriple)) (s : FetchState),
      ((s.netOps.map Prod.snd).Nodup ∧
        ∀ op ∈ s.netOps, op.2 ∈ s.present) →
      (((runFetchPlan resolve fetchOk url plan s).netOps.map
          Prod.snd).Nodup ∧
        ∀ op ∈ (runFetchPlan resolve fetchOk url plan s).netOps,
          op.2 ∈ (runFetchPlan resolve fetchOk url plan s).present) := by
  intro plan
  induction plan with
  | nil => intro s h; exact h
  | cons g rest ih =>
    intro s h
    exact ih _ (fetchSubCommits_netOps_nodup resolve fetchOk url hok g.2 s h)

/-- C7 (amended): executing the prefetch plan produced by `listFetches`
issues no network fetch operation twice for the same (resolved url, sha)
pair *as long as every issued fetch succeeds* — in fact no sha is then
fetched twice at all, even when several meta-commits introduce the same
submodule sha.  The dedup is not a plan-level pass: the plan may contain
duplicate (url, sha) triples, but `fetchSha` (spec §4.4) fetches only
objects not yet present, and a successful fetch makes its object present.
A *failed* fetch leaves the object absent, so the same pair can be issued
again from another submodule's list, as the counterexample below shows. -/
theorem runFetchPlan_no_duplicate_fetches (resolve : String → String → String)
    (fetchOk : String → String → Bool) (url : String)
    (changesOf : String → SubChanges)
    (urlsOf : String → List (String × String)) (exclude : String → Bool)
    (toFetch : List String) (s0 : FetchState)
    (hok : ∀ u sh, fetchOk u sh = true) (hinit : s0.netOps = []) :
    (runFetchPlan resolve fetchOk url
        (listFetches changesOf urlsOf exclude toFetch) s0).netOps.Nodup ∧
    ((runFetchPlan resolve fetchOk url
        (listFetches changesOf urlsOf exclude toFetch) s0).netOps.map
      Prod.snd).Nodup := by
  have h := runFetchPlan_netOps_nodup resolve fetchOk url hok
    (listFetches changesOf urlsOf exclude toFetch) s0
    (by rw [hinit]; exact ⟨List.nodup_nil, fun op hop => absurd hop
      (List.not_mem_nil op)⟩)
  exact ⟨h.1.of_map Prod.snd, h.1⟩

/-- Witness for `runFetchPlan_no_duplicate_fetches`: two meta-commits both
introduce submodule `s` at the same sha; the plan holds two triples for the
same (url, sha), yet only one network fetch is issued. -/
theorem runFetchPlan_no_duplicate_fetches_witness :
    ((∀ u sh, (fun _ _ => true : String → String → Bool) u sh = true) ∧
      (FetchState.mk [] [] [] []).netOps = []) ∧
    (runFetchPlan (fun r u => r ++ "/" ++ u) (fun _ _ => true) "R"
        (listFetches (fun _ => SubChanges.mk [("s", "x1")] [] [])
          (fun _ => [("s", "u")]) (fun _ => false) ["m1", "m2"])
        (FetchState.mk [] [] [] [])).netOps.Nodup := by
  refine ⟨⟨fun _ _ => rfl, rfl⟩, ?_⟩
  exact (runFetchPlan_no_duplicate_fetches (fun r u => r ++ "/" ++ u)
    (fun _ _ => true) "R" (fun _ => SubChanges.mk [("s", "x1")] [] [])
    (fun _ => [("s", "u")]) (fun _ => false) ["m1", "m2"]
    (FetchState.mk [] [] [] []) (fun _ _ => rfl) rfl).1

/-- C7, counterexample: the unconditional claim fails once a fetch fails.
Two submodule paths `a` and `b` share the url `u` and the sha `s`; one
meta-commit adds both, so the `listFetches` plan holds the pair
(`R/u`, `s`) in two lists.  With the network down (every fetch failing),
fetching `a`'s list issues (`R/u`, `s`) and fails, leaving the object
absent; fetching `b`'s list issues the very same pair again — the issued
operations are not duplicate-free. -/
theorem runFetchPlan_duplicate_fetch_counterexample :
    (runFetchPlan (fun r u => r ++ "/" ++ u) (fun _ _ => false) "R"
        (listFetches (fun _ => SubChanges.mk [("a", "s"), ("b", "s")] [] [])
          (fun _ => [("a", "u"), ("b", "u")]) (fun _ => false) ["m1"])
        (FetchState.mk [] [] [] [])).netOps =
      [("R/u", "s"), ("R/u", "s")] ∧
    ¬(runFetchPlan (fun r u => r ++ "/" ++ u) (fun _ _ => false) "R"
        (listFetches (fun _ => SubChanges.mk [("a", "s"), ("b", "s")] [] [])
          (fun _ => [("a", "u"), ("b", "u")]) (fun _ => false) ["m1"])
        (FetchState.mk [] [] [] [])).netOps.Nodup :=
  ⟨by decide, by decide⟩

/-!
## Tree merger (`TreeUtil.writeTree`, `src/unnamed/part_003`)

The object store appears through two oracles: `getTree` is `repo.getTree`,
and `hashTree` is the content-addressed `Treebuilder.write` — the id
returned for a written tree is a function of its entry list.  The base
tree's consistency (`hashTree base.entries = base.id`) is the hypothesis
that the base tree really lives in that store.
-/

/-- A tree entry as the treebuilder sees it: target id and file mode
(`treeEntry.isTree()` in the source is `mode = FILEMODE.TREE`). -/
structure TEntry where
  id : String
  mode : Nat
deriving DecidableEq, Repr

/-- A tree object: its id and its entry list. -/
structure TreeObj where
  id : String
  entries : List (String × TEntry)
deriving DecidableEq, Repr

/-- `builder.remove(filename)`: drop the binding for `k`. -/
def removeKey {β : Type} (m : List (String × β)) (k : String) :
    List (String × β) :=
  m.filter fun kv => kv.1 != k

/-- A node of the nested directory built by `buildDirectoryTree`: a
deletion (`null`), a `Change` leaf, or a subdirectory. -/
inductive DirEntry where
  | del : DirEntry
  | chg : Change → DirEntry
  | sub : List (String × DirEntry) → DirEntry

/-- One path of the flat map inserted into the nested directory (the body
of `buildDirectoryTree`'s outer loop, lines 54–93): walk the segments,
descending into existing subdirectories and replacing missing or deleted
nodes by fresh ones; at the leaf an already existing entry is kept (the
source then asserts the incoming value is a deletion; conflicting change
sets are undefined behaviour per the `writeTree` contract). -/
def insertPath : List String → Option Change → List (String × DirEntry) →
    List (String × DirEntry)
  | [], _, tree => tree
  | [leaf], data, tree =>
    match tree.lookup leaf with
    | some _ => tree
    | none =>
      setKey tree leaf
        (match data with
          | none => DirEntry.del
          | some c => DirEntry.chg c)
  | seg :: rest₁ :: rest₂, data, tree =>
    let next :=
      match tree.lookup seg with
      | some (DirEntry.sub d) => d
      | _ => []
    setKey tree seg (DirEntry.sub (insertPath (rest₁ :: rest₂) data next))

/-- `exports.buildDirectoryTree` (lines 51–96): group the flat path-keyed
change map into a directory hierarchy, in iteration order. -/
def buildDirectoryTree (flat : List (String × Option Change)) :
    List (String × DirEntry) :=
  flat.foldl (fun tree pc => insertPath (pc.1.splitOn "/") pc.2 tree) []

mutual

/-- `writeSubtree` (lines 165–219): create a treebuilder seeded with the
parent tree's entries, apply the directory's instructions, and write the
result — the returned tree has the content-addressed id of its entries. -/
def writeSubtree (getTree : String → Option TreeObj)
    (hashTree : List (String × TEntry) → String) (parent : Option TreeObj)
    (dir : List (String × DirEntry)) : TreeObj :=
  let entries :=
    processDir getTree hashTree parent ((parent.map TreeObj.entries).getD [])
      dir
  ⟨hashTree entries, entries⟩

/-- The builder loop of `writeSubtree` (lines 173–216): deletions remove
the entry, `Change` leaves are inserted with their id and mode, and
subdirectories are recursively written against the corresponding subtree
of the parent (when one exists there) — an empty resulting subtree removes
the entry, a non-empty one is inserted with TREE mode. -/
def processDir (getTree : String → Option TreeObj)
    (hashTree : List (String × TEntry) → String) (parent : Option TreeObj)
    (builder : List (String × TEntry)) :
    List (String × DirEntry) → List (String × TEntry)
  | [] => builder
  | (filename, e) :: rest =>
    let builder' :=
      match e with
      | DirEntry.del => removeKey builder filename
      | DirEntry.chg c => setKey builder filename ⟨c.id, c.mode⟩
      | DirEntry.sub d =>
        let subtreeParent : Option TreeObj :=
          match parent with
          | none => none
          | some pt =>
            match pt.entries.lookup filename with
            | some te =>
              if te.mode = FILEMODE_TREE then getTree te.id else none
            | none => none
        let subtree := writeSubtree getTree hashTree subtreeParent d
        if subtree.entries.length = 0 then removeKey builder filename
        else setKey builder filename ⟨subtree.id, FILEMODE_TREE⟩
    processDir getTree hashTree parent builder' rest

end

/-- `exports.writeTree` (lines 150–221): group the flat changes and write
them against `baseTree`. -/
def writeTree (getTree : String → Option TreeObj)
    (hashTree : List (String × TEntry) → String) (baseTree : Option TreeObj)
    (changes : List (String × Option Change)) : TreeObj :=
  writeSubtree getTree hashTree baseTree (buildDirectoryTree changes)

/-- C8: merging an empty change set against a non-null base tree yields a
tree whose id is the base tree's id — the treebuilder is seeded with the
base's entries, no instruction runs, and the content-addressed write of
the unchanged entry list returns the base id (no spurious rewrite). -/
theorem writeTree_empty_changes (getTree : String → Option TreeObj)
    (hashTree : List (String × TEntry) → String) (base : TreeObj)
    (hcontent : hashTree base.entries = base.id) :
    (writeTree getTree hashTree (some base) []).id = base.id := by
  simp [writeTree, buildDirectoryTree, writeSubtree, processDir, hcontent]

/-- Witness for `writeTree_empty_changes`: a base tree with two blobs `a`
and `b` in a store whose hash function is consistent with it. -/
theorem writeTree_empty_changes_witness :
    ((fun es => if es = [("a", TEntry.mk "ba" 33188), ("b", TEntry.mk "bb" 33188)] then "t0" else "other")
        (TreeObj.mk "t0" [("a", TEntry.mk "ba" 33188), ("b", TEntry.mk "bb" 33188)]).entries =
      (TreeObj.mk "t0" [("a", TEntry.mk "ba" 33188), ("b", TEntry.mk "bb" 33188)]).id) ∧
    (writeTree (fun _ => none)
        (fun es => if es = [("a", TEntry.mk "ba" 33188), ("b", TEntry.mk "bb" 33188)] then "t0" else "other")
        (some (TreeObj.mk "t0" [("a", TEntry.mk "ba" 33188), ("b", TEntry.mk "bb" 33188)]))
        []).id =
      (TreeObj.mk "t0" [("a", TEntry.mk "ba" 33188), ("b", TEntry.mk "bb" 33188)]).id := by
  refine ⟨by decide, ?_⟩
  exact writeTree_empty_changes (fun _ => none)
    (fun es => if es = [("a", TEntry.mk "ba" 33188), ("b", TEntry.mk "bb" 33188)] then "t0" else "other")
    (TreeObj.mk "t0" [("a", TEntry.mk "ba" 33188), ("b", TEntry.mk "bb" 33188)])
    (by decide)

end GitMeta
